import Mathlib

/-!
Verification development for the tree2fs repository.

The repository converts a textual tree diagram into a filesystem layout.
`src/tree2fs/cli/main.py` is embedded directly.  The tree-text parser
(`tree2fs/parser/tree_parser.py`) is not present in the source tree (only its
package re-export and its CLI caller are), so the parser core is modelled from
the specification, as noted on each definition.

Strings are embedded as `List Char`; Python string comparison is character-wise
equality, which `List Char` equality matches exactly.
-/

namespace Tree2fs

/-- File-or-directory tag carried by every tree node (spec §3, `kind`). -/
inductive Kind : Type where
  | directory : Kind
  | file : Kind
deriving DecidableEq

/-- In-memory tree node (spec §3): display name, kind, ordered children. -/
inductive Node : Type where
  | mk : List Char → Kind → List Node → Node

/-- Display name of a node. -/
def Node.name : Node → List Char
  | .mk n _ _ => n

/-- Kind of a node. -/
def Node.kind : Node → Kind
  | .mk _ k _ => k

/-- Ordered children of a node. -/
def Node.children : Node → List Node
  | .mk _ _ cs => cs

/-- One classified input line (spec §4.1): indentation depth and raw name. -/
structure CLine where
  depth : Nat
  name : List Char
deriving DecidableEq

/-- Parse failures surfaced by the core (spec §7).  `exhausted` is the fuel
sentinel of the shallow embedding; it is unreachable for the fuel supplied by
`buildTree`. -/
inductive TreeParseError : Type where
  | emptyInput : TreeParseError
  | emptyName : TreeParseError
  | malformed : List Char → TreeParseError
  | multiSegment : List Char → TreeParseError
  | indentJump : Nat → Nat → TreeParseError
  | exhausted : TreeParseError
deriving DecidableEq

/-- Does the raw name end with the path separator? -/
def endsSlash (s : List Char) : Bool := s.getLast? == some '/'

/-- Strip exactly one trailing path separator when present (spec §4.4). -/
def stripSlash (s : List Char) : List Char :=
  if endsSlash s then s.dropLast else s

/-- Modelled from the spec: the Normalization pass of §4.4
(`tree2fs/parser/tree_parser.py` is absent from `src/`).  Strip exactly one
trailing separator (recording Directory), fail if the remaining name is empty
or still contains a separator. -/
def normName (s : List Char) : Except TreeParseError (List Char × Bool) :=
  let t := stripSlash s
  if t = [] then .error .emptyName
  else if '/' ∈ t then .error (.multiSegment s)
  else .ok (t, endsSlash s)

/-- Modelled from the spec: node creation of §4.2 step 4c together with the
kind resolution of §4.4 — a node is a Directory when its name carried a
trailing separator or when it has children, otherwise a File. -/
def mkNode (l : CLine) (cs : List Node) : Except TreeParseError Node :=
  match normName l.name with
  | .error e => .error e
  | .ok (t, isDir) =>
      .ok (.mk t (if isDir = true ∨ cs.isEmpty = false then .directory else .file) cs)

/-- Modelled from the spec: the indentation-stack algorithm of §4.2 in
recursive-descent form.  `parseSiblings fuel d lines` consumes the maximal
prefix of `lines` forming complete subtrees rooted at depth `d` and returns
them with the unconsumed suffix.  A line deeper than the expected level is the
indentation jump of §4.2 step 4b and fails.  `fuel` only bounds recursion; any
`fuel > lines.length` behaves identically. -/
def parseSiblings : Nat → Nat → List CLine → Except TreeParseError (List Node × List CLine)
  | 0, _, _ => .error .exhausted
  | _ + 1, _, [] => .ok ([], [])
  | fuel + 1, d, l :: rest =>
    if l.depth < d then .ok ([], l :: rest)
    else if l.depth = d then
      match parseSiblings fuel (d + 1) rest with
      | .error e => .error e
      | .ok (cs, rest1) =>
        match mkNode l cs with
        | .error e => .error e
        | .ok node =>
          match parseSiblings fuel d rest1 with
          | .error e => .error e
          | .ok (sibs, rest2) => .ok (node :: sibs, rest2)
    else .error (.indentJump l.depth d)

/-- Modelled from the spec: `build` of §4.2 over an already classified line
stream.  A single depth-0 line becomes the root and supplies `root_name`;
several depth-0 lines are wrapped in a synthetic invisible root with an empty
name and `root_name = ""` (§4.2 steps 2 and 5). -/
def buildTree (lines : List CLine) : Except TreeParseError (Node × List Char) :=
  match parseSiblings (lines.length + 1) 0 lines with
  | .error e => .error e
  | .ok (forest, _) =>
    match forest with
    | [] => .error .emptyInput
    | [root] => .ok (root, root.name)
    | r1 :: r2 :: rs => .ok (.mk [] .directory (r1 :: r2 :: rs), [])

/-- A line consisting of whitespace only (filtered out, spec §4.2 step 1). -/
def isBlank (l : List Char) : Bool := l.all (· == ' ')

/-- The connector/indentation units of spec §6: box-drawing `├── `, `└── `,
`│   `, their ASCII fallbacks `|-- `, (backtick)`-- `, `|   `, and a plain
4-space group.  Every unit renders as 4 display columns and ends in a
space. -/
def units : List (List Char) :=
  [[' ', ' ', ' ', ' '],
   ['│', ' ', ' ', ' '],
   ['|', ' ', ' ', ' '],
   ['├', '─', '─', ' '],
   ['└', '─', '─', ' '],
   ['|', '-', '-', ' '],
   [Char.ofNat 96, '-', '-', ' ']]

/-- Does the line begin with a complete connector/indentation unit? -/
def startsUnit : List Char → Bool
  | a :: b :: c :: d :: _ => decide ([a, b, c, d] ∈ units)
  | _ => false

/-- Strip the maximal prefix of complete connector/indentation units,
returning its rendered width and the remainder (spec §4.1). -/
def stripUnits : List Char → Nat × List Char
  | a :: b :: c :: d :: rest =>
    if [a, b, c, d] ∈ units then
      let p := stripUnits rest
      (p.1 + 4, p.2)
    else (0, a :: b :: c :: d :: rest)
  | l => (0, l)

/-- A box-drawing connector character: a name remnant beginning with one is a
malformed (unmatched) connector, as in the spec's lone `│` example. -/
def boxChar (c : Char) : Bool := c == '│' || c == '├' || c == '└'

/-- A name remnant that cannot be a name: it still begins with a connector
unit or a box-drawing connector character (spec §4.1: a sequence that cannot
be separated into (indentation, name)). -/
def badName (nm : List Char) : Bool :=
  startsUnit nm ||
    (match nm.head? with
     | some c => boxChar c
     | none => false)

/-- Modelled from the spec: the Line Classifier of §4.1.  Strips the known
connector/prefix glyph units (box-drawing and ASCII fallbacks, §6) plus any
residual spaces, derives the indentation depth as stripped-prefix width ÷ the
fixed 4-column unit, and returns the remainder as the raw name.  Fails when
the name remnant is empty or is a malformed connector sequence (e.g. a lone
`│`). -/
def classify (l : List Char) : Except TreeParseError CLine :=
  let p := stripUnits l
  let nm := p.2.dropWhile (· == ' ')
  if nm = [] then .error .emptyName
  else if badName nm then .error (.malformed l)
  else .ok ⟨(p.1 + (p.2.takeWhile (· == ' ')).length) / 4, nm⟩

/-- Classify every line in order, propagating the first failure (spec §7:
all-or-nothing). -/
def classifyAll : List (List Char) → Except TreeParseError (List CLine)
  | [] => .ok []
  | l :: rest =>
    match classify l with
    | .error e => .error e
    | .ok c =>
      match classifyAll rest with
      | .error e => .error e
      | .ok cs => .ok (c :: cs)

/-- Modelled from the spec: `build_tree` on a text given as a list of lines —
filter blank lines, classify, then assemble (spec §4.2). -/
def textToTree (text : List (List Char)) : Except TreeParseError (Node × List Char) :=
  match classifyAll (text.filter (fun l => !isBlank l)) with
  | .error e => .error e
  | .ok lines => buildTree lines

/-- Names of a forest in pre-order: each node before its descendants,
children in stored order. -/
def preorderF : List Node → List (List Char)
  | [] => []
  | .mk n _ cs :: rest => n :: (preorderF cs ++ preorderF rest)

/-- Number of nodes in a forest. -/
def sizeF : List Node → Nat
  | [] => 0
  | .mk _ _ cs :: rest => 1 + sizeF cs + sizeF rest

/-- The classified-line stream that re-serializing a forest at depth `d`
produces: one line per node, depth first. -/
def clF : Nat → List Node → List CLine
  | _, [] => []
  | d, .mk n k cs :: rest =>
      ⟨d, n ++ (if k = Kind.directory then ['/'] else [])⟩ :: (clF (d + 1) cs ++ clF d rest)

/-- Modelled from the spec: re-serialization of a tree into indented text
(spec §8 round-trip property) — 4 spaces per depth unit, a trailing separator
on directories. -/
def serializeF : Nat → List Node → List (List Char)
  | _, [] => []
  | d, .mk n k cs :: rest =>
      (List.replicate (4 * d) ' ' ++ n ++ (if k = Kind.directory then ['/'] else []))
        :: (serializeF (d + 1) cs ++ serializeF d rest)

/-- Serialize a parse result: a synthetic empty-named root is invisible, so
only its children are printed; a real root is printed itself. -/
def serialize (root : Node) (rootName : List Char) : List (List Char) :=
  if rootName = [] then serializeF 0 root.children else serializeF 0 [root]

/-- Structural well-formedness of parser output: names are nonempty single
path segments and any node with children is a Directory (spec §3 invariants). -/
inductive NodeOK : Node → Prop where
  | mk : ∀ (n : List Char) (k : Kind) (cs : List Node),
      n ≠ [] → '/' ∉ n → (cs ≠ [] → k = .directory) →
      (∀ c ∈ cs, NodeOK c) → NodeOK (.mk n k cs)

/-- The children-imply-Directory invariant alone (spec §3): a node with one or
more children has kind Directory, hereditarily. -/
inductive DirOK : Node → Prop where
  | mk : ∀ (n : List Char) (k : Kind) (cs : List Node),
      (cs ≠ [] → k = .directory) → (∀ c ∈ cs, DirOK c) → DirOK (.mk n k cs)

/-- Every name in the tree starts with a non-space character and is not a
connector remnant — true of any tree classified from text, and what makes
re-serialization unambiguous. -/
inductive HeadsOK : Node → Prop where
  | mk : ∀ (n : List Char) (k : Kind) (cs : List Node),
      n.head? ≠ some ' ' → badName n = false →
      (∀ c ∈ cs, HeadsOK c) → HeadsOK (.mk n k cs)

/-! ## CLI model (embedding of `src/tree2fs/cli/main.py`) -/

/-- The `--format` flag of `main.py` (choices `txt`, `json`; default `txt`). -/
inductive Format : Type where
  | txt : Format
  | json : Format
deriving DecidableEq

/-- Error raised by the external `FilesystemBuilder` collaborator. -/
inductive FilesystemBuildError : Type where
  | mk : List Char → FilesystemBuildError

/-- Render a parse error for the `❌ Error: {e}` stderr line of `main.py`. -/
def errMsg : TreeParseError → List Char
  | .emptyInput => "empty tree".toList
  | .emptyName => "empty name".toList
  | .malformed s => "malformed connector: ".toList ++ s
  | .multiSegment s => "multi-segment name: ".toList ++ s
  | .indentJump d p => "indentation jump to depth ".toList
      ++ (Nat.toDigits 10 d) ++ " under depth ".toList ++ (Nat.toDigits 10 p)
  | .exhausted => "internal".toList

/-- Split a character list at every path separator. -/
def splitOnSlash : List Char → List (List Char)
  | [] => [[]]
  | c :: rest =>
    match splitOnSlash rest with
    | [] => [[]]
    | cur :: parts => if c = '/' then [] :: cur :: parts else (c :: cur) :: parts

/-- Final path-component name of a path string, as `pathlib.Path(...).name`
computes it for the paths the CLI handles: the last component after dropping
empty components and `.`; the empty string when none remains (e.g. `/`). -/
def pathName (p : List Char) : List Char :=
  (((splitOnSlash p).filter (fun s => !s.isEmpty && s != ['.'])).getLast?).getD []

/-- `main.py` lines 90–93: `.` or the empty string as `--base-dir` resolves to
the current working directory, anything else is taken as given. -/
def resolveBase (baseDir cwd : List Char) : List Char :=
  if baseDir == ['.'] || baseDir == [] then cwd else baseDir

/-- `main.py` lines 95–97: skip the root exactly when `--no-skip-root` is
absent, the parsed root name is nonempty (Python truthiness of a string) and
the base directory's final component equals it character for character. -/
def shouldSkipRoot (noSkipRoot : Bool) (rootName baseName : List Char) : Bool :=
  !noSkipRoot && !rootName.isEmpty && baseName == rootName

/-- The parser backend outcome selected by the `--format` flag
(`main.py` lines 81–89). -/
def selParse (fmt : Format) (tp jp : Except TreeParseError (Node × List Char)) :
    Except TreeParseError (Node × List Char) :=
  match fmt with
  | .json => jp
  | .txt => tp

/-- Observable outcome of one `main` run: its return code, the lines printed
to stderr, and every `FilesystemBuilder.build` invocation with its
`skip_root` argument. -/
structure MainResult where
  exitCode : Nat
  stderrLines : List (List Char)
  builderCalls : List (Node × Bool)

/-- Embedding of `main` (`src/tree2fs/cli/main.py` lines 80–124).  The two
parser backends and the filesystem builder are the external collaborators of
spec §1/§6, so their outcomes are parameters: `txtParse` / `jsonParse` stand
for `TreeParser().build_tree(path)` / `JsonParser().build_tree(path)` and
`builderBuild` for `FilesystemBuilder(...).build`.  Verbose-mode stdout
chatter is not modelled. -/
def mainModel (fmt : Format) (baseDir : List Char) (noSkipRoot : Bool) (cwd : List Char)
    (txtParse jsonParse : Except TreeParseError (Node × List Char))
    (builderBuild : Node → Bool → Except FilesystemBuildError Unit) : MainResult :=
  match selParse fmt txtParse jsonParse with
  | .error e => ⟨1, ["Error: ".toList ++ errMsg e], []⟩
  | .ok (root, rootName) =>
    let basePath := resolveBase baseDir cwd
    let skip := shouldSkipRoot noSkipRoot rootName (pathName basePath)
    match builderBuild root skip with
    | .error _ => ⟨1, ["Error: build".toList], [(root, skip)]⟩
    | .ok _ => ⟨0, [], [(root, skip)]⟩

/-! ## Parser lemmas -/

theorem NodeOK.dirOK : ∀ {t : Node}, NodeOK t → DirOK t := by
  intro t h
  induction h with
  | mk n k cs _ _ hdir _ ih => exact DirOK.mk n k cs hdir ih

-- quick sanity checks of the model on the spec's worked example
example :
    buildTree [⟨0, "project/".toList⟩, ⟨1, "README.md".toList⟩, ⟨1, "src/".toList⟩,
      ⟨2, "main.py".toList⟩] =
    .ok (.mk "project".toList .directory
          [.mk "README.md".toList .file [],
           .mk "src".toList .directory [.mk "main.py".toList .file []]],
        "project".toList) := by rfl

example :
    buildTree [⟨0, "a/".toList⟩, ⟨2, "b.txt".toList⟩] =
    .error (.indentJump 2 1) := by rfl

example :
    buildTree [⟨0, "a/".toList⟩, ⟨0, "b/".toList⟩] =
    .ok (.mk [] .directory [.mk "a".toList .directory [], .mk "b".toList .directory []],
        []) := by rfl

example :
    textToTree ["a/".toList, "        b.txt".toList] = .error (.indentJump 2 1) := by rfl

-- the spec's §8 worked example in its original connector-glyph form
example :
    textToTree ["project/".toList, "├── README.md".toList, "├── src/".toList,
      "│   └── main.py".toList]
    = .ok (.mk "project".toList .directory
        [.mk "README.md".toList .file [],
         .mk "src".toList .directory [.mk "main.py".toList .file []]],
      "project".toList) := by rfl

-- ASCII fallback connectors parse identically
example :
    textToTree ["project/".toList, "|-- README.md".toList, "|-- src/".toList,
      "|   `-- main.py".toList]
    = .ok (.mk "project".toList .directory
        [.mk "README.md".toList .file [],
         .mk "src".toList .directory [.mk "main.py".toList .file []]],
      "project".toList) := by rfl

-- a lone vertical-bar connector with no following name is malformed (spec §8)
example :
    textToTree ["a/".toList, "│".toList] = .error (.malformed "│".toList) := by rfl

/-- The head of a name survives stripping the trailing separator, provided
something remains. -/
theorem head?_stripSlash {s : List Char} (h : stripSlash s ≠ []) :
    (stripSlash s).head? = s.head? := by
  by_cases hb : endsSlash s
  · rw [stripSlash, if_pos hb] at h ⊢
    cases s with
    | nil => simp at h
    | cons a t =>
      cases t with
      | nil => simp at h
      | cons b t2 => simp [List.dropLast]
  · rw [stripSlash, if_neg hb]

/-- Dropping the last character of a name cannot create a leading connector
unit. -/
theorem startsUnit_dropLast {s : List Char} (h : startsUnit s = false) :
    startsUnit s.dropLast = false := by
  cases s with
  | nil => rfl
  | cons a t =>
    cases t with
    | nil => rfl
    | cons b t2 =>
      cases t2 with
      | nil => rfl
      | cons c t3 =>
        cases t3 with
        | nil => rfl
        | cons d t4 =>
          cases t4 with
          | nil => rfl
          | cons e t5 =>
            simp only [List.dropLast] at h ⊢
            simp only [startsUnit] at h ⊢
            exact h

/-- Stripping the trailing separator preserves well-formedness of a name. -/
theorem badName_stripSlash {s : List Char} (h : badName s = false)
    (hne : stripSlash s ≠ []) : badName (stripSlash s) = false := by
  have hh := head?_stripSlash hne
  simp only [badName, Bool.or_eq_false_iff] at h ⊢
  refine ⟨?_, ?_⟩
  · unfold stripSlash
    by_cases hb : endsSlash s
    · rw [if_pos hb]; exact startsUnit_dropLast h.1
    · rw [if_neg hb]; exact h.1
  · rw [hh]; exact h.2

/-- Appending the directory separator preserves well-formedness of a name:
every connector unit ends in a space, which `/` is not. -/
theorem badName_append {n : List Char} (hne : n ≠ []) (hnb : badName n = false)
    (k : Kind) : badName (n ++ (if k = Kind.directory then ['/'] else [])) = false := by
  cases k with
  | file => simpa using hnb
  | directory =>
    rw [if_pos rfl]
    simp only [badName, Bool.or_eq_false_iff] at hnb ⊢
    obtain ⟨hsu, hbox⟩ := hnb
    refine ⟨?_, ?_⟩
    · cases n with
      | nil => exact absurd rfl hne
      | cons a t =>
        cases t with
        | nil => rfl
        | cons b t2 =>
          cases t2 with
          | nil => rfl
          | cons c t3 =>
            cases t3 with
            | nil =>
              simp only [List.cons_append, List.nil_append, startsUnit,
                decide_eq_false_iff_not]
              intro hm
              simp only [units, List.mem_cons, List.mem_singleton] at hm
              rcases hm with h | h | h | h | h | h | h <;> simp at h
            | cons dd t4 =>
              simp only [List.cons_append, startsUnit] at hsu ⊢
              exact hsu
    · cases n with
      | nil => exact absurd rfl hne
      | cons a t => simpa using hbox

/-- Successful normalization returns the stripped raw name, which is a
nonempty single path segment, and the separator flag. -/
theorem normName_ok {s t : List Char} {b : Bool} (h : normName s = .ok (t, b)) :
    t = stripSlash s ∧ stripSlash s ≠ [] ∧ '/' ∉ stripSlash s ∧ b = endsSlash s := by
  simp only [normName] at h
  by_cases h1 : stripSlash s = []
  · rw [if_pos h1] at h; simp at h
  · rw [if_neg h1] at h
    by_cases h2 : '/' ∈ stripSlash s
    · rw [if_pos h2] at h; simp at h
    · rw [if_neg h2] at h
      simp only [Except.ok.injEq, Prod.mk.injEq] at h
      exact ⟨h.1.symm, h1, h2, h.2.symm⟩

/-- Successful node creation: the node wraps the normalized name, the kind
resolved from the separator hint and the presence of children, and exactly
the children given. -/
theorem mkNode_ok {l : CLine} {cs : List Node} {node : Node}
    (h : mkNode l cs = .ok node) :
    node = .mk (stripSlash l.name)
        (if endsSlash l.name = true ∨ cs.isEmpty = false then .directory else .file) cs
      ∧ stripSlash l.name ≠ [] ∧ '/' ∉ stripSlash l.name := by
  unfold mkNode at h
  cases hn : normName l.name with
  | error e => rw [hn] at h; exact Except.noConfusion h
  | ok p =>
    obtain ⟨t, b⟩ := p
    obtain ⟨ht, hne, hmem, hb⟩ := normName_ok hn
    rw [hn] at h
    simp only [Except.ok.injEq] at h
    exact ⟨by rw [← h, ht, hb], hne, hmem⟩

/-- Nodes built by `mkNode` satisfy the structural invariant whenever their
children do. -/
theorem mkNode_nodeOK {l : CLine} {cs : List Node} {node : Node}
    (h : mkNode l cs = .ok node) (hcs : ∀ c ∈ cs, NodeOK c) : NodeOK node := by
  obtain ⟨hshape, hne, hmem⟩ := mkNode_ok h
  subst hshape
  refine NodeOK.mk _ _ _ hne hmem ?_ hcs
  intro hne2
  have hempty : cs.isEmpty = false := by
    cases cs with
    | nil => exact absurd rfl hne2
    | cons c ct => rfl
  rw [if_pos (Or.inr hempty)]

/-- Structural invariant of a successful `parseSiblings` run.  The consumed
prefix `pre` starts at depth `d`, never dips below `d`, never deepens by more
than one level between adjacent lines, and the parsed forest lists exactly
the lines of `pre` in pre-order with normalized names; parsing stops at the
first line shallower than `d`. -/
theorem parseSiblings_ok_inv :
    ∀ (fuel : Nat) {d : Nat} {lines : List CLine} {ns : List Node} {rest : List CLine},
      lines.length < fuel →
      parseSiblings fuel d lines = .ok (ns, rest) →
      ∃ pre, lines = pre ++ rest
        ∧ (∀ x ∈ rest.head?, x.depth < d)
        ∧ (∀ x ∈ pre, d ≤ x.depth)
        ∧ (∀ x ∈ pre.head?, x.depth = d)
        ∧ List.Chain' (fun x y => y.depth ≤ x.depth + 1) pre
        ∧ preorderF ns = pre.map (fun x => stripSlash x.name)
        ∧ ns.map Node.name = ((pre.filter (fun x => x.depth = d)).map fun x => stripSlash x.name)
        ∧ (∀ n ∈ ns, NodeOK n)
        ∧ ((∀ x ∈ pre, x.name.head? ≠ some ' ' ∧ badName x.name = false) →
            ∀ n ∈ ns, HeadsOK n) := by
  intro fuel
  induction fuel with
  | zero => intro d lines ns rest hlen h; exact absurd hlen (Nat.not_lt_zero _)
  | succ fuel ih =>
    intro d lines ns rest hlen h
    cases lines with
    | nil =>
      simp only [parseSiblings, Except.ok.injEq, Prod.mk.injEq] at h
      obtain ⟨hns, hrest⟩ := h
      subst hns; subst hrest
      exact ⟨[], by simp, by simp, by simp, by simp, by simp,
        by simp [preorderF], by simp [preorderF], by simp, by simp⟩
    | cons l rest0 =>
      simp only [parseSiblings] at h
      by_cases h1 : l.depth < d
      · rw [if_pos h1] at h
        simp only [Except.ok.injEq, Prod.mk.injEq] at h
        obtain ⟨hns, hrest⟩ := h
        subst hns; subst hrest
        refine ⟨[], by simp, ?_, by simp, by simp, by simp,
          by simp [preorderF], by simp [preorderF], by simp, by simp⟩
        intro x hx
        simp only [List.head?_cons, Option.mem_def, Option.some.injEq] at hx
        subst hx
        exact h1
      · rw [if_neg h1] at h
        by_cases h2 : l.depth = d
        · rw [if_pos h2] at h
          split at h
          next e heq => exact Except.noConfusion h
          next cs rest1 heq =>
            split at h
            next e heq2 => exact Except.noConfusion h
            next node heq2 =>
              split at h
              next e heq3 => exact Except.noConfusion h
              next sibs rest2 heq3 =>
                simp only [Except.ok.injEq, Prod.mk.injEq] at h
                obtain ⟨hns, hrest⟩ := h
                subst hns; subst hrest
                have hlen0 : rest0.length < fuel := by
                  simp only [List.length_cons] at hlen; omega
                obtain ⟨preC, hCeq, hC0, hCge, hChd, hCch, hCpre, hCnm, hCok, hChds⟩ :=
                  ih hlen0 heq
                have hlen1 : rest1.length < fuel := by
                  have hl := congrArg List.length hCeq
                  simp only [List.length_append] at hl
                  omega
                obtain ⟨preS, hSeq, hS0, hSge, hShd, hSch, hSpre, hSnm, hSok, hShds⟩ :=
                  ih hlen1 heq3
                obtain ⟨hnode, hne, hnoslash⟩ := mkNode_ok heq2
                subst hnode
                refine ⟨l :: (preC ++ preS), ?_, hS0, ?_, ?_, ?_, ?_, ?_, ?_, ?_⟩
                · rw [List.cons_append, hCeq, hSeq, List.append_assoc]
                · intro x hx
                  simp only [List.mem_cons, List.mem_append] at hx
                  rcases hx with rfl | hx | hx
                  · omega
                  · have := hCge x hx; omega
                  · exact hSge x hx
                · intro x hx
                  simp only [List.head?_cons, Option.mem_def, Option.some.injEq] at hx
                  subst hx
                  exact h2
                · refine List.chain'_cons'.mpr ⟨?_, List.chain'_append.mpr ⟨hCch, hSch, ?_⟩⟩
                  · intro y hy
                    cases preC with
                    | nil =>
                      simp only [List.nil_append] at hy
                      have := hShd y hy
                      omega
                    | cons c ct =>
                      simp only [List.cons_append, List.head?_cons, Option.mem_def,
                        Option.some.injEq] at hy
                      subst hy
                      have := hChd c (by simp)
                      omega
                  · intro x hx y hy
                    have hx2 : x ∈ preC := List.mem_of_getLast?_eq_some hx
                    have hyd := hShd y hy
                    have hxd := hCge x hx2
                    omega
                · simp only [preorderF, List.map_cons, List.map_append]
                  rw [hCpre, hSpre]
                · have hCfilter : preC.filter (fun x => x.depth = d) = [] := by
                    refine List.filter_eq_nil_iff.mpr ?_
                    intro a ha
                    have := hCge a ha
                    simp only [decide_eq_true_eq]
                    omega
                  simp only [List.map_cons, Node.name, List.filter_cons, List.filter_append,
                    hCfilter, h2, decide_True, List.nil_append, List.map_cons]
                  rw [hSnm]
                  simp
                · intro n hn
                  rcases List.mem_cons.mp hn with rfl | hn
                  · exact mkNode_nodeOK heq2 hCok
                  · exact hSok n hn
                · intro hhd n hn
                  have hl := hhd l (by simp)
                  rcases List.mem_cons.mp hn with rfl | hn
                  · refine HeadsOK.mk _ _ _ ?_ ?_ ?_
                    · rw [head?_stripSlash hne]; exact hl.1
                    · exact badName_stripSlash hl.2 hne
                    · intro c hc
                      refine hChds ?_ c hc
                      intro x hx
                      exact hhd x (by simp [hx])
                  · refine hShds ?_ n hn
                    intro x hx
                    exact hhd x (by simp [hx])
        · rw [if_neg h2] at h
          exact Except.noConfusion h

/-- At depth 0 nothing can be shallower than the current level, so a
successful top-level parse consumes every line. -/
theorem parseSiblings_zero_rest {fuel : Nat} {lines : List CLine} {ns : List Node}
    {rest : List CLine} (hlen : lines.length < fuel)
    (h : parseSiblings fuel 0 lines = .ok (ns, rest)) : rest = [] := by
  obtain ⟨pre, _, h0, _⟩ := parseSiblings_ok_inv fuel hlen h
  cases rest with
  | nil => rfl
  | cons r t =>
    have := h0 r (by simp)
    omega

/-- Successful `buildTree` runs come from a successful full parse of the
line stream, with the root either the single top-level node or the synthetic
empty-named directory wrapping at least two top-level nodes. -/
theorem buildTree_ok {lines : List CLine} {root : Node} {nm : List Char}
    (h : buildTree lines = .ok (root, nm)) :
    ∃ forest, parseSiblings (lines.length + 1) 0 lines = .ok (forest, [])
      ∧ ((∃ r, forest = [r] ∧ root = r ∧ nm = r.name)
         ∨ (2 ≤ forest.length ∧ root = .mk [] .directory forest ∧ nm = [])) := by
  unfold buildTree at h
  split at h
  next e heq => exact Except.noConfusion h
  next forest rest heq =>
    have hrest : rest = [] := parseSiblings_zero_rest (by omega) heq
    subst hrest
    split at h
    · exact Except.noConfusion h
    next r =>
      simp only [Except.ok.injEq, Prod.mk.injEq] at h
      exact ⟨[r], heq, Or.inl ⟨r, rfl, h.1.symm, h.2.symm⟩⟩
    next r1 r2 rs =>
      simp only [Except.ok.injEq, Prod.mk.injEq] at h
      exact ⟨r1 :: r2 :: rs, heq,
        Or.inr ⟨by simp, h.1.symm, h.2.symm⟩⟩

@[simp] theorem depth_mk (d : Nat) (nm : List Char) : (CLine.mk d nm).depth = d := rfl

@[simp] theorem name_mk (d : Nat) (nm : List Char) : (CLine.mk d nm).name = nm := rfl

theorem endsSlash_concat (n : List Char) : endsSlash (n ++ ['/']) = true := by
  simp [endsSlash, List.getLast?_concat]

theorem endsSlash_of_no_slash {n : List Char} (h : '/' ∉ n) : endsSlash n = false := by
  unfold endsSlash
  cases hg : n.getLast? with
  | none => rfl
  | some c =>
    have hc : c ∈ n := List.mem_of_getLast?_eq_some hg
    have hcne : c ≠ '/' := fun he => h (he ▸ hc)
    simp [hcne]

theorem stripSlash_concat (n : List Char) : stripSlash (n ++ ['/']) = n := by
  simp [stripSlash, endsSlash_concat, List.dropLast_concat]

theorem stripSlash_of_no_slash {n : List Char} (h : '/' ∉ n) : stripSlash n = n := by
  simp [stripSlash, endsSlash_of_no_slash h]

/-- Re-parsing a serialized line rebuilds the node exactly: the separator is
written back for directories and the children-rule restores the kind. -/
theorem mkNode_clF {d : Nat} {n : List Char} {k : Kind} {cs : List Node}
    (hname : n ≠ []) (hnos : '/' ∉ n) (hdir : cs ≠ [] → k = .directory) :
    mkNode ⟨d, n ++ (if k = Kind.directory then ['/'] else [])⟩ cs = .ok (.mk n k cs) := by
  cases k with
  | directory =>
    have hn : normName (n ++ ['/']) = .ok (n, true) := by
      simp only [normName, stripSlash_concat, endsSlash_concat]
      rw [if_neg hname, if_neg hnos]
    simp [mkNode, hn]
  | file =>
    have hcs : cs = [] := by
      by_contra hne2
      exact Kind.noConfusion (hdir hne2)
    subst hcs
    have hn : normName n = .ok (n, false) := by
      simp only [normName, stripSlash_of_no_slash hnos, endsSlash_of_no_slash hnos]
      rw [if_neg hname, if_neg hnos]
    simp [mkNode, hn]

/-- Parsing the serialized line stream of a well-formed forest at its own
depth consumes exactly that stream and rebuilds the forest. -/
theorem parseSiblings_clF :
    ∀ (fuel : Nat) {d : Nat} {ns : List Node} {tail : List CLine},
      (clF d ns).length < fuel →
      (∀ n ∈ ns, NodeOK n) →
      (∀ x ∈ tail.head?, x.depth < d) →
      parseSiblings fuel d (clF d ns ++ tail) = .ok (ns, tail) := by
  intro fuel
  induction fuel with
  | zero => intro d ns tail hlen _ _; exact absurd hlen (Nat.not_lt_zero _)
  | succ fuel ih =>
    intro d ns tail hlen hok htail
    cases ns with
    | nil =>
      rw [show clF d [] = [] from by simp only [clF], List.nil_append]
      cases tail with
      | nil => rfl
      | cons t ts =>
        have hd := htail t (by simp)
        simp only [parseSiblings]
        rw [if_pos hd]
    | cons node rest =>
      obtain ⟨n, k, cs⟩ := node
      have hokh := hok (.mk n k cs) (by simp)
      have hname : n ≠ [] := by cases hokh with | mk _ _ _ a _ _ _ => exact a
      have hnos : '/' ∉ n := by cases hokh with | mk _ _ _ _ a _ _ => exact a
      have hdir : cs ≠ [] → k = .directory := by
        cases hokh with | mk _ _ _ _ _ a _ => exact a
      have hcsok : ∀ c ∈ cs, NodeOK c := by cases hokh with | mk _ _ _ _ _ _ a => exact a
      have hrok : ∀ c ∈ rest, NodeOK c := fun c hc => hok c (by simp [hc])
      have hlens : (clF (d + 1) cs).length < fuel ∧ (clF d rest).length < fuel := by
        simp only [clF, List.length_cons, List.length_append] at hlen
        omega
      have hheadC : ∀ x ∈ (clF d rest ++ tail).head?, x.depth < d + 1 := by
        intro x hx
        cases rest with
        | nil =>
          rw [show clF d ([] : List Node) = [] from by simp only [clF],
            List.nil_append] at hx
          have := htail x hx
          omega
        | cons r2 rt =>
          obtain ⟨n2, k2, cs2⟩ := r2
          simp only [clF, List.cons_append, List.head?_cons, Option.mem_def,
            Option.some.injEq] at hx
          subst hx
          exact Nat.lt_succ_self d
      have hchild := ih hlens.1 hcsok hheadC
      have hsib := ih hlens.2 hrok htail
      simp only [clF, List.cons_append, List.append_assoc]
      simp only [parseSiblings, depth_mk]
      rw [if_neg (lt_irrefl d), if_pos trivial]
      simp only [hchild, mkNode_clF hname hnos hdir, hsib]

/-- A name that does not start with a space has no leading spaces to take. -/
theorem takeWhile_nil_of_head {nm : List Char} (h : nm.head? ≠ some ' ') :
    nm.takeWhile (· == ' ') = [] ∧ nm.dropWhile (· == ' ') = nm := by
  cases nm with
  | nil => exact ⟨rfl, rfl⟩
  | cons c t =>
    have hc : (c == ' ') = false := beq_false_of_ne fun he => h (by simp [he])
    simp [List.takeWhile_cons, List.dropWhile_cons, hc]

/-- Unit stripping stops immediately on a line with no leading unit. -/
theorem stripUnits_stop {l : List Char} (h : startsUnit l = false) :
    stripUnits l = (0, l) := by
  cases l with
  | nil => rfl
  | cons a t =>
    cases t with
    | nil => rfl
    | cons b t2 =>
      cases t2 with
      | nil => rfl
      | cons c t3 =>
        cases t3 with
        | nil => rfl
        | cons d t4 =>
          simp only [startsUnit, decide_eq_false_iff_not] at h
          simp only [stripUnits, if_neg h]

/-- Unit stripping on a plain-space indented line consumes exactly the
4-space groups. -/
theorem stripUnits_replicate {nm : List Char} (h : startsUnit nm = false) :
    ∀ d : Nat, stripUnits (List.replicate (4 * d) ' ' ++ nm) = (4 * d, nm) := by
  intro d
  induction d with
  | zero => simpa using stripUnits_stop h
  | succ d ihd =>
    have hrep : List.replicate (4 * (d + 1)) ' ' ++ nm
        = ' ' :: ' ' :: ' ' :: ' ' :: (List.replicate (4 * d) ' ' ++ nm) := by
      rw [show 4 * (d + 1) = 4 + 4 * d by ring, List.replicate_add]
      simp [List.replicate]
    rw [hrep]
    simp only [stripUnits]
    rw [if_pos (by decide : ([' ', ' ', ' ', ' '] : List Char) ∈ units), ihd]
    simp [Nat.mul_succ]

/-- Classifying a serialized line recovers its depth and raw name. -/
theorem classify_serialized {d : Nat} {nm : List Char}
    (hne : nm ≠ []) (hhd : nm.head? ≠ some ' ') (hnb : badName nm = false) :
    classify (List.replicate (4 * d) ' ' ++ nm) = .ok ⟨d, nm⟩ := by
  have hsu : startsUnit nm = false := by
    simp only [badName, Bool.or_eq_false_iff] at hnb
    exact hnb.1
  obtain ⟨htake, hdrop⟩ := takeWhile_nil_of_head hhd
  simp only [classify, stripUnits_replicate hsu d, htake, hdrop]
  rw [if_neg hne, if_neg (by simp [hnb] : ¬ (badName nm = true))]
  simp [Nat.mul_div_cancel_left d (by decide : (0 : Nat) < 4)]

/-- `classifyAll` distributes over append. -/
theorem classifyAll_append {a b : List (List Char)} {ra rb : List CLine}
    (ha : classifyAll a = .ok ra) (hb : classifyAll b = .ok rb) :
    classifyAll (a ++ b) = .ok (ra ++ rb) := by
  induction a generalizing ra with
  | nil =>
    simp only [classifyAll, Except.ok.injEq] at ha
    subst ha
    simpa using hb
  | cons x xs ihx =>
    simp only [classifyAll] at ha
    cases hcx : classify x with
    | error e => rw [hcx] at ha; exact Except.noConfusion ha
    | ok c0 =>
      simp only [hcx] at ha
      cases hxs : classifyAll xs with
      | error e => simp only [hxs] at ha; exact Except.noConfusion ha
      | ok cs =>
        simp only [hxs, Except.ok.injEq] at ha
        subst ha
        simp [List.cons_append, classifyAll, hcx, ihx hxs]

/-- Every name produced by the classifier starts with a non-space character
(residual spaces are stripped) and is not a connector remnant (those are
rejected as malformed). -/
theorem classifyAll_heads :
    ∀ {tl : List (List Char)} {lines : List CLine}, classifyAll tl = .ok lines →
      ∀ c ∈ lines, c.name.head? ≠ some ' ' ∧ badName c.name = false := by
  intro tl
  induction tl with
  | nil =>
    intro lines h c hc
    simp only [classifyAll, Except.ok.injEq] at h
    subst h
    simp at hc
  | cons x xs ihx =>
    intro lines h c hc
    simp only [classifyAll] at h
    cases hcx : classify x with
    | error e => rw [hcx] at h; exact Except.noConfusion h
    | ok c0 =>
      simp only [hcx] at h
      cases hxs : classifyAll xs with
      | error e => simp only [hxs] at h; exact Except.noConfusion h
      | ok cs =>
        simp only [hxs, Except.ok.injEq] at h
        subst h
        rcases List.mem_cons.mp hc with rfl | hc2
        · simp only [classify] at hcx
          by_cases hemp : (stripUnits x).2.dropWhile (· == ' ') = []
          · rw [if_pos hemp] at hcx; exact Except.noConfusion hcx
          · rw [if_neg hemp] at hcx
            by_cases hbad : badName ((stripUnits x).2.dropWhile (· == ' ')) = true
            · rw [if_pos hbad] at hcx; exact Except.noConfusion hcx
            · rw [if_neg hbad] at hcx
              simp only [Except.ok.injEq] at hcx
              subst hcx
              refine ⟨?_, by simpa using hbad⟩
              intro hcontra
              have hh := List.head?_dropWhile_not (· == ' ') (stripUnits x).2
              rw [show ((stripUnits x).2.dropWhile (· == ' ')).head? = some ' '
                from hcontra] at hh
              simp at hh
        · exact ihx hxs c hc2

/-- Serialized lines of a well-formed forest classify back to exactly the
`clF` line stream. -/
theorem classifyAll_serializeF :
    ∀ (k d : Nat) (ns : List Node), sizeF ns ≤ k →
      (∀ n ∈ ns, NodeOK n) → (∀ n ∈ ns, HeadsOK n) →
      classifyAll (serializeF d ns) = .ok (clF d ns) := by
  intro k
  induction k with
  | zero =>
    intro d ns hsz _ _
    cases ns with
    | nil => simp only [serializeF, clF, classifyAll]
    | cons node rest =>
      obtain ⟨n, kk, cs⟩ := node
      simp only [sizeF] at hsz
      omega
  | succ k ihk =>
    intro d ns hsz hok hhd
    cases ns with
    | nil => simp only [serializeF, clF, classifyAll]
    | cons node rest =>
      obtain ⟨n, kk, cs⟩ := node
      have hokh := hok (.mk n kk cs) (by simp)
      have hhdh := hhd (.mk n kk cs) (by simp)
      have hname : n ≠ [] := by cases hokh with | mk _ _ _ a _ _ _ => exact a
      have hnhd : n.head? ≠ some ' ' := by cases hhdh with | mk _ _ _ a _ _ => exact a
      have hnnb : badName n = false := by cases hhdh with | mk _ _ _ _ a _ => exact a
      have hcsok : ∀ c ∈ cs, NodeOK c := by cases hokh with | mk _ _ _ _ _ _ a => exact a
      have hcshd : ∀ c ∈ cs, HeadsOK c := by cases hhdh with | mk _ _ _ _ _ a => exact a
      have hrok : ∀ c ∈ rest, NodeOK c := fun c hc => hok c (by simp [hc])
      have hrhd : ∀ c ∈ rest, HeadsOK c := fun c hc => hhd c (by simp [hc])
      have hsz2 : sizeF cs ≤ k ∧ sizeF rest ≤ k := by
        simp only [sizeF] at hsz
        omega
      have hfull_ne : (n ++ (if kk = Kind.directory then ['/'] else [])) ≠ [] := by
        intro hcontra
        exact hname (List.append_eq_nil.mp hcontra).1
      have hfull_hd : (n ++ (if kk = Kind.directory then ['/'] else [])).head? ≠ some ' ' := by
        cases n with
        | nil => exact absurd rfl hname
        | cons c t => simpa using hnhd
      have hfull_nb : badName (n ++ (if kk = Kind.directory then ['/'] else [])) = false :=
        badName_append hname hnnb kk
      have hA := ihk (d + 1) cs hsz2.1 hcsok hcshd
      have hB := ihk d rest hsz2.2 hrok hrhd
      simp only [serializeF, clF, List.append_assoc, classifyAll,
        classify_serialized hfull_ne hfull_hd hfull_nb, classifyAll_append hA hB]

/-- No serialized line of a well-formed forest is blank. -/
theorem serializeF_nonblank :
    ∀ (k d : Nat) (ns : List Node), sizeF ns ≤ k →
      (∀ n ∈ ns, NodeOK n) → (∀ n ∈ ns, HeadsOK n) →
      ∀ x ∈ serializeF d ns, isBlank x = false := by
  intro k
  induction k with
  | zero =>
    intro d ns hsz _ _ x hx
    cases ns with
    | nil => simp only [serializeF, List.not_mem_nil] at hx
    | cons node rest =>
      obtain ⟨n, kk, cs⟩ := node
      simp only [sizeF] at hsz
      omega
  | succ k ihk =>
    intro d ns hsz hok hhd x hx
    cases ns with
    | nil => simp only [serializeF, List.not_mem_nil] at hx
    | cons node rest =>
      obtain ⟨n, kk, cs⟩ := node
      have hokh := hok (.mk n kk cs) (by simp)
      have hhdh := hhd (.mk n kk cs) (by simp)
      have hname : n ≠ [] := by cases hokh with | mk _ _ _ a _ _ _ => exact a
      have hnhd : n.head? ≠ some ' ' := by cases hhdh with | mk _ _ _ a _ _ => exact a
      have hcsok : ∀ c ∈ cs, NodeOK c := by cases hokh with | mk _ _ _ _ _ _ a => exact a
      have hcshd : ∀ c ∈ cs, HeadsOK c := by cases hhdh with | mk _ _ _ _ _ a => exact a
      have hrok : ∀ c ∈ rest, NodeOK c := fun c hc => hok c (by simp [hc])
      have hrhd : ∀ c ∈ rest, HeadsOK c := fun c hc => hhd c (by simp [hc])
      have hsz2 : sizeF cs ≤ k ∧ sizeF rest ≤ k := by
        simp only [sizeF] at hsz
        omega
      simp only [serializeF, List.mem_cons, List.mem_append] at hx
      rcases hx with rfl | hx | hx
      · cases n with
        | nil => exact absurd rfl hname
        | cons c t =>
          have hcne : c ≠ ' ' := by
            intro hce
            exact hnhd (by simp [hce])
          have hc : (c == ' ') = false := beq_false_of_ne hcne
          simp [isBlank, hc]
      · exact ihk (d + 1) cs hsz2.1 hcsok hcshd x hx
      · exact ihk d rest hsz2.2 hrok hrhd x hx

/-- Parsing the serialization of a well-formed forest rebuilds the forest and
re-derives the root exactly as `buildTree` would. -/
theorem textToTree_serializeF {ns : List Node}
    (hok : ∀ n ∈ ns, NodeOK n) (hhd : ∀ n ∈ ns, HeadsOK n) :
    textToTree (serializeF 0 ns)
      = match ns with
        | [] => .error .emptyInput
        | [r] => .ok (r, r.name)
        | r1 :: r2 :: rs => .ok (.mk [] .directory (r1 :: r2 :: rs), []) := by
  have hfilter : (serializeF 0 ns).filter (fun l => !isBlank l) = serializeF 0 ns :=
    List.filter_eq_self.mpr fun a ha => by
      simp [serializeF_nonblank (sizeF ns) 0 ns le_rfl hok hhd a ha]
  have hclass : classifyAll (serializeF 0 ns) = .ok (clF 0 ns) :=
    classifyAll_serializeF (sizeF ns) 0 ns le_rfl hok hhd
  have hparse : parseSiblings ((clF 0 ns).length + 1) 0 (clF 0 ns ++ []) = .ok (ns, []) :=
    parseSiblings_clF _ (by simp) hok (by simp)
  rw [List.append_nil] at hparse
  have hmain : textToTree (serializeF 0 ns) = buildTree (clF 0 ns) := by
    simp only [textToTree, hfilter, hclass]
  rw [hmain]
  simp only [buildTree, hparse]
  cases ns with
  | nil => rfl
  | cons a l =>
    cases l with
    | nil => rfl
    | cons b l2 => rfl

/-! ## Claims about the CLI (`src/tree2fs/cli/main.py`) -/

/-- C1 (counterexample): skip-root is NOT decided by name equality alone.
`build_tree` on the two-root input `a/`, `b/` returns `root_name = ""`; with
base directory `/`, whose final path-component name is also `""`, the names
are equal character for character, yet `main` invokes the builder with
`skip_root = False` because line 96 of `main.py` additionally requires
`root_name` to be truthy (nonempty). -/
theorem skip_root_not_pure_equality :
    textToTree ["a/".toList, "b/".toList]
      = .ok (Node.mk [] .directory [Node.mk ['a'] .directory [], Node.mk ['b'] .directory []],
          [])
    ∧ pathName (resolveBase "/".toList "/h".toList) = ([] : List Char)
    ∧ (mainModel .txt "/".toList false "/h".toList
        (textToTree ["a/".toList, "b/".toList])
        (.ok (Node.mk ['x'] .file [], ['x']))
        (fun _ _ => .ok ())).builderCalls
      = [(Node.mk [] .directory [Node.mk ['a'] .directory [], Node.mk ['b'] .directory []],
          false)] :=
  ⟨rfl, rfl, rfl⟩

/-- C1 (amended): with default flags, the builder is invoked with
`skip_root = (root_name is nonempty AND the base directory's final
path-component name equals root_name character for character)`; the equality
itself is case-sensitive, being `List Char` equality. -/
theorem skip_root_decision (baseDir cwd rootName : List Char) (r : Node)
    (jp : Except TreeParseError (Node × List Char))
    (bld : Node → Bool → Except FilesystemBuildError Unit) :
    (mainModel .txt baseDir false cwd (.ok (r, rootName)) jp bld).builderCalls
      = [(r, !rootName.isEmpty && (pathName (resolveBase baseDir cwd) == rootName))] := by
  cases hb : bld r (shouldSkipRoot false rootName (pathName (resolveBase baseDir cwd))) <;>
    · simp only [mainModel, selParse]
      rw [hb]
      simp [shouldSkipRoot]

/-- C4: the CLI selects the parser backend solely from the `--format` flag —
`json` uses the JSON backend, `txt` (the default) the tree-text backend — and
whenever the selected backend succeeds, its root node is exactly what is
handed to `FilesystemBuilder.build`, with the skip flag computed from its
root name. -/
theorem cli_dispatch_by_format (fmt : Format) (baseDir : List Char) (noSkipRoot : Bool)
    (cwd : List Char) (tp jp : Except TreeParseError (Node × List Char))
    (bld : Node → Bool → Except FilesystemBuildError Unit) :
    (mainModel fmt baseDir noSkipRoot cwd tp jp bld).builderCalls
      = match selParse fmt tp jp with
        | .error _ => []
        | .ok (r, nm) =>
            [(r, shouldSkipRoot noSkipRoot nm (pathName (resolveBase baseDir cwd)))] := by
  cases hsel : selParse fmt tp jp with
  | error e => simp [mainModel, hsel]
  | ok pr =>
    obtain ⟨r, nm⟩ := pr
    cases hb : bld r (shouldSkipRoot noSkipRoot nm (pathName (resolveBase baseDir cwd))) <;>
      · simp only [mainModel]
        rw [hsel]
        simp [hb]

/-- C5: when the selected parser raises `TreeParseError`, `main` prints the
error to stderr, returns exit code 1 and never invokes the filesystem
builder; when nothing raises, `main` returns 0. -/
theorem parse_error_aborts_run (fmt : Format) (baseDir : List Char) (noSkipRoot : Bool)
    (cwd : List Char) (tp jp : Except TreeParseError (Node × List Char))
    (bld : Node → Bool → Except FilesystemBuildError Unit) :
    (∀ e, selParse fmt tp jp = .error e →
      (mainModel fmt baseDir noSkipRoot cwd tp jp bld).exitCode = 1
      ∧ (mainModel fmt baseDir noSkipRoot cwd tp jp bld).stderrLines
          = ["Error: ".toList ++ errMsg e]
      ∧ (mainModel fmt baseDir noSkipRoot cwd tp jp bld).builderCalls = [])
    ∧ (∀ r nm, selParse fmt tp jp = .ok (r, nm) →
      bld r (shouldSkipRoot noSkipRoot nm (pathName (resolveBase baseDir cwd))) = .ok () →
      (mainModel fmt baseDir noSkipRoot cwd tp jp bld).exitCode = 0) := by
  constructor
  · intro e he
    simp [mainModel, he]
  · intro r nm hsel hb
    simp only [mainModel]
    rw [hsel]
    simp [hb]

/-- Witness for C5: a concrete failed parse yields exit code 1, the stderr
line and no builder call; a concrete clean run yields exit code 0. -/
theorem parse_error_aborts_run_w :
    ((mainModel .txt ['.'] false ['d'] (.error .emptyInput)
        (.ok (Node.mk ['x'] .file [], ['x'])) (fun _ _ => .ok ())).exitCode = 1
      ∧ (mainModel .txt ['.'] false ['d'] (.error .emptyInput)
          (.ok (Node.mk ['x'] .file [], ['x'])) (fun _ _ => .ok ())).stderrLines
        = ["Error: ".toList ++ errMsg .emptyInput]
      ∧ (mainModel .txt ['.'] false ['d'] (.error .emptyInput)
          (.ok (Node.mk ['x'] .file [], ['x'])) (fun _ _ => .ok ())).builderCalls = [])
    ∧ (mainModel .txt ['.'] false ['d'] (.ok (Node.mk ['a'] .directory [], ['a']))
        (.ok (Node.mk ['x'] .file [], ['x'])) (fun _ _ => .ok ())).exitCode = 0 := by
  refine ⟨?_, ?_⟩
  · exact (parse_error_aborts_run .txt ['.'] false ['d'] (.error .emptyInput)
      (.ok (Node.mk ['x'] .file [], ['x'])) (fun _ _ => .ok ())).1 .emptyInput rfl
  · exact (parse_error_aborts_run .txt ['.'] false ['d']
      (.ok (Node.mk ['a'] .directory [], ['a']))
      (.ok (Node.mk ['x'] .file [], ['x'])) (fun _ _ => .ok ())).2
      (Node.mk ['a'] .directory []) ['a'] rfl rfl

/-- C9: an empty parsed `root_name` (as after synthesizing a multi-root)
never skips: the builder is invoked with `skip_root = False` for every base
directory, even one whose final path-component name is itself empty. -/
theorem empty_root_name_never_skips (baseDir : List Char) (noSkipRoot : Bool)
    (cwd : List Char) (r : Node) (jp : Except TreeParseError (Node × List Char))
    (bld : Node → Bool → Except FilesystemBuildError Unit) :
    (mainModel .txt baseDir noSkipRoot cwd (.ok (r, [])) jp bld).builderCalls
      = [(r, false)] := by
  have hskip : shouldSkipRoot noSkipRoot [] (pathName (resolveBase baseDir cwd)) = false := by
    simp [shouldSkipRoot]
  cases hb : bld r false <;>
    · simp only [mainModel, selParse, hskip]
      rw [hb]

/-- C10: under `--no-skip-root`, every builder invocation in the run carries
`skip_root = False`, for every format, parse outcome and base directory —
even when `root_name` matches the base name exactly. -/
theorem no_skip_root_flag_wins (fmt : Format) (baseDir cwd : List Char)
    (tp jp : Except TreeParseError (Node × List Char))
    (bld : Node → Bool → Except FilesystemBuildError Unit) :
    ((mainModel fmt baseDir true cwd tp jp bld).builderCalls.all fun c => !c.2) = true := by
  have hskip : ∀ nm bn, shouldSkipRoot true nm bn = false := by
    intro nm bn; simp [shouldSkipRoot]
  cases hsel : selParse fmt tp jp with
  | error e => simp [mainModel, hsel]
  | ok pr =>
    obtain ⟨r, nm⟩ := pr
    simp only [mainModel]
    rw [hsel]
    simp only [hskip]
    cases hb : bld r false <;> simp [hb]

/-! ## Claims about the tree-text parser (modelled from the spec) -/

/-- C2: an indentation jump is rejected.  If the classified lines contain a
line `l` whose nearest preceding shallower line `s` (shallower, with nothing
shallower than `l` strictly between them) is more than exactly one level above
it, `build_tree` raises `TreeParseError` instead of guessing a parent. -/
theorem indent_jump_errors {lines A B C : List CLine} {s l : CLine}
    (hsplit : lines = A ++ s :: (B ++ l :: C))
    (hB : ∀ b ∈ B, l.depth ≤ b.depth)
    (hjump : s.depth + 1 < l.depth) :
    ∃ e, buildTree lines = .error e := by
  subst hsplit
  cases hbt : buildTree (A ++ s :: (B ++ l :: C)) with
  | error e => exact ⟨e, rfl⟩
  | ok p =>
    exfalso
    obtain ⟨root, nm⟩ := p
    obtain ⟨forest, hp, _⟩ := buildTree_ok hbt
    obtain ⟨pre, hpre, _, _, _, hch, _⟩ := parseSiblings_ok_inv _ (by omega) hp
    rw [List.append_nil] at hpre
    rw [← hpre] at hch
    have h2 := (List.chain'_append.mp hch).2.1
    have h3 := (List.chain'_cons'.mp h2).1
    cases B with
    | nil =>
      have := h3 l (by simp)
      omega
    | cons b bt =>
      have hb1 := h3 b (by simp)
      have hb2 := hB b (by simp)
      omega

/-- Witness for C2: the spec's example — `a/` followed by an 8-space-indented
`b.txt` (depth 2 directly under depth 0) — fails. -/
theorem indent_jump_errors_w :
    ∃ e, buildTree [⟨0, "a/".toList⟩, ⟨2, "b.txt".toList⟩] = .error e :=
  @indent_jump_errors [⟨0, "a/".toList⟩, ⟨2, "b.txt".toList⟩] [] [] []
    ⟨0, "a/".toList⟩ ⟨2, "b.txt".toList⟩ rfl (by simp) (by decide)

/-- C3: in every tree returned by `build_tree`, a node with one or more
children has kind Directory, whatever the kind hint of its source line
(including the absence of a trailing separator). -/
theorem children_imply_directory {lines : List CLine} {root : Node} {nm : List Char}
    (h : buildTree lines = .ok (root, nm)) : DirOK root := by
  obtain ⟨forest, hp, hcase⟩ := buildTree_ok h
  obtain ⟨pre, _, _, _, _, _, _, _, hok, _⟩ := parseSiblings_ok_inv _ (by omega) hp
  rcases hcase with ⟨r, hf, rfl, _⟩ | ⟨hlen2, rfl, _⟩
  · exact (hok root (by rw [hf]; simp)).dirOK
  · refine DirOK.mk _ _ _ (fun _ => rfl) ?_
    intro c hc
    exact (hok c hc).dirOK

/-- Witness for C3: the line `a` carries no trailing separator yet its node,
having a child, is a Directory. -/
theorem children_imply_directory_w :
    DirOK (Node.mk ['a'] .directory [Node.mk "b.txt".toList .file []]) :=
  @children_imply_directory [⟨0, ['a']⟩, ⟨1, "b.txt".toList⟩]
    (Node.mk ['a'] .directory [Node.mk "b.txt".toList .file []]) ['a'] rfl

/-- C6: with two or more depth-0 lines, `build_tree` synthesizes an invisible
Directory root with an empty name whose children are the depth-0 lines'
nodes in order, and returns `root_name = ""`. -/
theorem multi_root_synthesizes {lines : List CLine} {root : Node} {nm : List Char}
    (h : buildTree lines = .ok (root, nm))
    (hmulti : 2 ≤ (lines.filter fun x => x.depth = 0).length) :
    nm = [] ∧ root.name = [] ∧ root.kind = .directory
      ∧ root.children.map Node.name
        = ((lines.filter fun x => x.depth = 0).map fun x => stripSlash x.name) := by
  obtain ⟨forest, hp, hcase⟩ := buildTree_ok h
  obtain ⟨pre, hpre, _, _, _, _, _, hnm, _, _⟩ := parseSiblings_ok_inv _ (by omega) hp
  rw [List.append_nil] at hpre
  rw [← hpre] at hnm
  rcases hcase with ⟨r, hf, rfl, _⟩ | ⟨hlen2, rfl, rfl⟩
  · exfalso
    have hlen := congrArg List.length hnm
    rw [hf] at hlen
    simp only [List.length_map, List.length_cons, List.length_nil] at hlen
    omega
  · exact ⟨rfl, rfl, rfl, hnm⟩

/-- Witness for C6: two depth-0 lines `a/` and `b/` produce the synthetic
unnamed root with two Directory children and `root_name = ""`. -/
theorem multi_root_synthesizes_w :
    ([] : List Char) = []
      ∧ (Node.mk [] .directory
          [Node.mk ['a'] .directory [], Node.mk ['b'] .directory []]).name = []
      ∧ (Node.mk [] .directory
          [Node.mk ['a'] .directory [], Node.mk ['b'] .directory []]).kind = .directory
      ∧ (Node.mk [] .directory
          [Node.mk ['a'] .directory [], Node.mk ['b'] .directory []]).children.map Node.name
        = (([⟨0, "a/".toList⟩, ⟨0, "b/".toList⟩] : List CLine).filter
            (fun x => x.depth = 0)).map fun x => stripSlash x.name :=
  @multi_root_synthesizes [⟨0, "a/".toList⟩, ⟨0, "b/".toList⟩]
    (Node.mk [] .directory [Node.mk ['a'] .directory [], Node.mk ['b'] .directory []])
    [] rfl (by decide)

/-- C7: pre-order traversal of a `build_tree` result (through the invisible
synthetic root when `root_name` is empty) lists exactly the source lines'
normalized names in source order — every parent before its descendants,
children in the same relative order as their source lines. -/
theorem preorder_matches_source {lines : List CLine} {root : Node} {nm : List Char}
    (h : buildTree lines = .ok (root, nm)) :
    preorderF (if nm = [] then root.children else [root])
      = lines.map fun x => stripSlash x.name := by
  obtain ⟨forest, hp, hcase⟩ := buildTree_ok h
  obtain ⟨pre, hpre, _, _, _, _, hpref, _, hok, _⟩ := parseSiblings_ok_inv _ (by omega) hp
  rw [List.append_nil] at hpre
  rw [← hpre] at hpref
  rcases hcase with ⟨r, hf, rfl, rfl⟩ | ⟨hlen2, rfl, rfl⟩
  · have hrok := hok root (by rw [hf]; simp)
    have hne : root.name ≠ [] := by
      cases hrok with | mk n k cs hn _ _ _ => exact hn
    rw [if_neg hne, ← hf]
    exact hpref
  · rw [if_pos rfl]
    exact hpref

/-- Witness for C7: the spec's worked example's pre-order equals its line
order. -/
theorem preorder_matches_source_w :
    preorderF (if "project".toList = ([] : List Char)
        then (Node.mk "project".toList .directory
          [Node.mk "README.md".toList .file [],
           Node.mk "src".toList .directory [Node.mk "main.py".toList .file []]]).children
        else [Node.mk "project".toList .directory
          [Node.mk "README.md".toList .file [],
           Node.mk "src".toList .directory [Node.mk "main.py".toList .file []]]])
      = ([⟨0, "project/".toList⟩, ⟨1, "README.md".toList⟩, ⟨1, "src/".toList⟩,
          ⟨2, "main.py".toList⟩] : List CLine).map fun x => stripSlash x.name :=
  @preorder_matches_source
    [⟨0, "project/".toList⟩, ⟨1, "README.md".toList⟩, ⟨1, "src/".toList⟩,
      ⟨2, "main.py".toList⟩]
    (Node.mk "project".toList .directory
      [Node.mk "README.md".toList .file [],
       Node.mk "src".toList .directory [Node.mk "main.py".toList .file []]])
    "project".toList rfl

/-- C8: round-trip.  Serializing any tree produced by `build_tree` from
tree-text back into indented text and re-parsing yields the same tree and
root name. -/
theorem parse_serialize_roundtrip {text : List (List Char)} {root : Node} {nm : List Char}
    (h : textToTree text = .ok (root, nm)) :
    textToTree (serialize root nm) = .ok (root, nm) := by
  have hsplit : ∃ lines, classifyAll (text.filter fun l => !isBlank l) = .ok lines
      ∧ buildTree lines = .ok (root, nm) := by
    unfold textToTree at h
    split at h
    next e heq => exact Except.noConfusion h
    next lines heq => exact ⟨lines, heq, h⟩
  obtain ⟨lines, hclassify, hbuild⟩ := hsplit
  have hlinehd : ∀ c ∈ lines, c.name.head? ≠ some ' ' ∧ badName c.name = false :=
    classifyAll_heads hclassify
  obtain ⟨forest, hp, hcase⟩ := buildTree_ok hbuild
  obtain ⟨pre, hpre, _, _, _, _, _, _, hok, hhds⟩ := parseSiblings_ok_inv _ (by omega) hp
  rw [List.append_nil] at hpre
  subst hpre
  have hforesthd : ∀ n ∈ forest, HeadsOK n := hhds hlinehd
  rcases hcase with ⟨r, hf, rfl, rfl⟩ | ⟨hlen2, rfl, rfl⟩
  · have hrok : NodeOK root := hok root (by rw [hf]; simp)
    have hrhd : HeadsOK root := hforesthd root (by rw [hf]; simp)
    have hne : root.name ≠ [] := by cases hrok with | mk n k cs a _ _ _ => exact a
    rw [serialize, if_neg hne]
    have hres := @textToTree_serializeF [root]
      (by intro n hn; simp only [List.mem_singleton] at hn; subst hn; exact hrok)
      (by intro n hn; simp only [List.mem_singleton] at hn; subst hn; exact hrhd)
    rw [hres]
  · rw [serialize, if_pos rfl]
    rw [show (Node.mk [] Kind.directory forest).children = forest from rfl]
    rw [@textToTree_serializeF forest hok hforesthd]
    cases forest with
    | nil => simp at hlen2
    | cons r1 t =>
      cases t with
      | nil => simp at hlen2
      | cons r2 t2 => rfl

/-- Witness for C8: the spec's worked example in its connector-glyph form
parses, serializes and re-parses to the same tree and root name. -/
theorem parse_serialize_roundtrip_w :
    textToTree (serialize
        (Node.mk "project".toList .directory
          [Node.mk "README.md".toList .file [],
           Node.mk "src".toList .directory [Node.mk "main.py".toList .file []]])
        "project".toList)
      = .ok (Node.mk "project".toList .directory
          [Node.mk "README.md".toList .file [],
           Node.mk "src".toList .directory [Node.mk "main.py".toList .file []]],
        "project".toList) :=
  @parse_serialize_roundtrip
    ["project/".toList, "├── README.md".toList, "├── src/".toList,
      "│   └── main.py".toList]
    (Node.mk "project".toList .directory
      [Node.mk "README.md".toList .file [],
       Node.mk "src".toList .directory [Node.mk "main.py".toList .file []]])
    "project".toList rfl

end Tree2fs
